import Mathlib

/-
Verification of the cmux HTTP router's path-matching core.

Shallow embedding of the Go sources:
  mux.go       : Mux, fmtMatcher, mkRoute, matchDir, ServeHTTP dispatch
  pathvars.go  : pathFieldParser, mdPatch, parseString, getParseUint, getParseInt

Go strings are modelled as lists of characters (one entry per byte
position); Go maps as association lists; Go pointers/allocation (for the
metadata binder) as an explicit heap of buffers.  Fallible operations
return Option, with none standing for log.Fatalln at registration time
and for a parse error at request time.
-/

set_option maxRecDepth 4000

namespace Cmux

/-- GoStr models a Go string as a list of characters. -/
abbrev GoStr := List Char

/-- A byte buffer: a Go byte slice, one Nat per byte. -/
abbrev Buf := List Nat

/-- The kind of a metadata struct field, as discriminated by the
reflect-kind switch in parseStruct (pathvars.go): string fields,
unsigned integer fields of a given bit size (0 meaning machine width),
and signed integer fields of a given bit size. -/
inductive FieldKind where
  | fstr
  | fuint (bits : Nat)
  | fint (bits : Nat)
deriving DecidableEq, Repr

/-- A parsed path-variable value: the pointee of the unsafe.Pointer
returned by a field parser in pathvars.go. -/
inductive PVal where
  | vstr (s : GoStr)
  | vuint (n : Nat)
  | vint (i : Int)
deriving DecidableEq, Repr

/-- pathFieldParser from pathvars.go.  The function field Fn is
represented by the FieldKind that selects it; rtype models the
reflect.Type field, which parseStruct never assigns (it stays nil,
here none). -/
structure pathFieldParser where
  kind : FieldKind
  rtype : Option FieldKind := none
  offset : Nat
  size : Nat
deriving DecidableEq, Repr

/-- mdPatch from pathvars.go: Source is the pointee of the source
pointer, Offset the byte offset in the metadata struct, Size the byte
count copied. -/
structure mdPatch where
  source : PVal
  offset : Nat
  size : Nat
deriving DecidableEq, Repr

/-- The registration-time view of a metadata template: its prototype
byte image (metadataRaw in mux.go) together with the field table that
parseStruct derives from the struct type. -/
structure MetaImage where
  raw : Buf
  fields : List (GoStr × pathFieldParser)
deriving DecidableEq, Repr

/- ---------- string primitives (package strings) ---------- -/

/-- strings.Cut(s, sep) for a single-character separator: (before,
after, found); when the separator does not occur, (s, "", false). -/
def goCutChar (c : Char) : GoStr → GoStr × GoStr × Bool
  | [] => ([], [], false)
  | x :: xs =>
    if x = c then ([], xs, true)
    else
      match goCutChar c xs with
      | (b, a, f) => (x :: b, a, f)

/-- strings.Split(s, sep) for a single-character separator.  Always
returns a non-empty list; splitting the empty string gives [""]. -/
def splitOnChar (c : Char) : GoStr → List GoStr
  | [] => [[]]
  | x :: xs =>
    match splitOnChar c xs with
    | [] => [[]]
    | y :: ys => if x = c then [] :: y :: ys else (x :: y) :: ys

/-- strings.HasPrefix(s, p): s is at least as long as p and starts
with it. -/
def goHasPre (p s : GoStr) : Bool := s.take p.length == p

/-- strings.HasSuffix(s, p): s is at least as long as p and ends
with it. -/
def goHasSuf (p s : GoStr) : Bool := s.drop (s.length - p.length) == p

/-- The captured text dir[len(pre) : len(dir)-len(suf)] extracted by
matchDir between a matcher's literal head and tail. -/
def capturedText (pre suf dir : GoStr) : GoStr :=
  (dir.drop pre.length).take (dir.length - suf.length - pre.length)

/- ---------- value parsers (pathvars.go) ---------- -/

/-- Numeric value of a decimal digit, none for a non-digit. -/
def digToNat (c : Char) : Option Nat :=
  if '0' ≤ c ∧ c ≤ '9' then some (c.toNat - '0'.toNat) else none

/-- Accumulate the base-10 value of a digit string; none on the first
non-digit character. -/
def decDigitsAux : GoStr → Nat → Option Nat
  | [], acc => some acc
  | c :: cs, acc =>
    match digToNat c with
    | some d => decDigitsAux cs (acc * 10 + d)
    | none => none

/-- Base-10 value of a non-empty all-digit string, none otherwise
(the digit loop of strconv's parse functions). -/
def decDigits : GoStr → Option Nat
  | [] => none
  | s => decDigitsAux s 0

/-- Width in bits actually enforced by strconv for a requested bitSize:
0 selects the machine width, 64 bits on the targets the code runs on
(strconv.IntSize). -/
def effBits (bitSize : Nat) : Nat := if bitSize = 0 then 64 else bitSize

/-- getParseUint from pathvars.go: strconv.ParseUint(s, 10, bitSize).
No sign is permitted; the value must fit in bitSize bits, otherwise the
range error makes the parser fail. -/
def getParseUint (bitSize : Nat) (s : GoStr) : Option Nat :=
  match decDigits s with
  | none => none
  | some n => if n < 2 ^ effBits bitSize then some n else none

/-- getParseInt from pathvars.go: strconv.ParseInt(s, 10, bitSize).
An optional single leading sign, then digits; bounds are those of the
two's-complement width. -/
def getParseInt (bitSize : Nat) (s : GoStr) : Option Int :=
  match s with
  | [] => none
  | c :: rest =>
    let neg := c = '-'
    let digits := if c = '-' ∨ c = '+' then rest else s
    match decDigits digits with
    | none => none
    | some n =>
      if neg then
        if n ≤ 2 ^ (effBits bitSize - 1) then some (-(n : Int)) else none
      else
        if n < 2 ^ (effBits bitSize - 1) then some (n : Int) else none

/-- parseString from pathvars.go: accepts every captured text verbatim
and never fails. -/
def parseString (s : GoStr) : Option PVal := some (.vstr s)

/-- The parser function a pathFieldParser's Fn field stands for,
following the kind switch in parseStruct (pathvars.go). -/
def fieldFn : FieldKind → GoStr → Option PVal
  | .fstr => parseString
  | .fuint b => fun s => (getParseUint b s).map .vuint
  | .fint b => fun s => (getParseInt b s).map .vint

/- ---------- the routing trie (mux.go) ---------- -/

mutual
/-- Mux from mux.go, restricted to the routing-relevant fields:
methodHandlers (the set of method names that have a handler),
metadata (the template image, none when nil), servesDir, the literal
child map m, and the ordered pattern-matcher list. -/
inductive Mux : Type where
  | mk : (methodHandlers : List (List Char)) → (metadata : Option MetaImage) →
         (servesDir : Bool) → (m : List (List Char × Mux)) →
         (matchers : List fmtMatcher) → Mux
/-- fmtMatcher from mux.go: child mux, literal head and tail of the
segment, the field parser, the variable name (Label) and the field
size. -/
inductive fmtMatcher : Type where
  | mk : (child : Mux) → (pre : List Char) → (suf : List Char) →
         (fp : pathFieldParser) → (label : List Char) → (size : Nat) → fmtMatcher
end

def Mux.methodHandlers : Mux → List GoStr
  | .mk h _ _ _ _ => h

def Mux.metadata : Mux → Option MetaImage
  | .mk _ md _ _ _ => md

def Mux.servesDir : Mux → Bool
  | .mk _ _ sd _ _ => sd

def Mux.m : Mux → List (GoStr × Mux)
  | .mk _ _ _ mp _ => mp

def Mux.matchers : Mux → List fmtMatcher
  | .mk _ _ _ _ ms => ms

def fmtMatcher.child : fmtMatcher → Mux
  | .mk c _ _ _ _ _ => c

def fmtMatcher.pre : fmtMatcher → GoStr
  | .mk _ p _ _ _ _ => p

def fmtMatcher.suf : fmtMatcher → GoStr
  | .mk _ _ s _ _ _ => s

def fmtMatcher.fp : fmtMatcher → pathFieldParser
  | .mk _ _ _ f _ _ => f

def fmtMatcher.label : fmtMatcher → GoStr
  | .mk _ _ _ _ l _ => l

def fmtMatcher.size : fmtMatcher → Nat
  | .mk _ _ _ _ _ s => s

/-- The zero-value child node created at registration:
&Mux{parent: mux, m: map[string]*Mux{}}. -/
def emptyMux : Mux := .mk [] none false [] []

/-- Replace a matcher's child, keeping its key fields. -/
def fmtMatcher.withChild : fmtMatcher → Mux → fmtMatcher
  | .mk _ p s f l sz, c => .mk c p s f l sz

/-- Replace the literal child map of a node. -/
def Mux.withM : Mux → List (GoStr × Mux) → Mux
  | .mk h md sd _ ms, mp => .mk h md sd mp ms

/-- Replace the matcher list of a node. -/
def Mux.withMatchers : Mux → List fmtMatcher → Mux
  | .mk h md sd mp _, ms => .mk h md sd mp ms

/-- Go map lookup on the literal child map. -/
def lookupM : List (GoStr × Mux) → GoStr → Option Mux
  | [], _ => none
  | (k, v) :: rest, key => if k == key then some v else lookupM rest key

/-- Go map store on the literal child map: replace the binding when the
key is present, add it otherwise. -/
def setM : List (GoStr × Mux) → GoStr → Mux → List (GoStr × Mux)
  | [], k, v => [(k, v)]
  | (k0, v0) :: rest, k, v =>
    if k0 == k then (k, v) :: rest else (k0, v0) :: setM rest k v

/-- Lookup in a parseStruct field table. -/
def lookupP : List (GoStr × pathFieldParser) → GoStr → Option pathFieldParser
  | [], _ => none
  | (k, v) :: rest, key => if k == key then some v else lookupP rest key

/- ---------- registration (mkRoute, mux.go) ---------- -/

/-- The five-way comparison of the matcher-deduplication loop in
mkRoute: Prefix, Suffix, FieldParser.Type, Label and Size. -/
def matcherKeyEq (m k : fmtMatcher) : Bool :=
  m.pre == k.pre && m.suf == k.suf && m.fp.rtype == k.fp.rtype &&
  m.label == k.label && m.size == k.size

/-- The value of mIdx after mkRoute's matcher scan loop: the index of
the first matcher passing the five-way comparison if any; otherwise the
loop runs to completion and mIdx retains the last index, ms.length - 1
(0 for an empty list, where the loop body never runs). -/
def scanIdx : List fmtMatcher → fmtMatcher → Nat
  | [], _ => 0
  | m :: ms, k =>
    if matcherKeyEq m k then 0
    else if ms.isEmpty then 0 else scanIdx ms k + 1

/-- The terminal-node assignment at the end of mkRoute: overwrite
servesDir, metadata and methodHandlers, keep children and matchers. -/
def setTerminal : Mux → Option MetaImage → Bool → List GoStr → Mux
  | .mk _ _ _ mp ms, md, sd, hs => .mk hs md sd mp ms

/-- The directory-descent loop of mkRoute over the already-split
segment list.  none models log.Fatalln (malformed brackets, empty
literal segment, nil metadata with a variable, unknown variable
name). -/
def insertDirs (md : Option MetaImage) (sd : Bool) (hs : List GoStr) :
    Mux → List GoStr → Option Mux
  | mux, [] => some (setTerminal mux md sd hs)
  | mux, dir :: rest =>
    match goCutChar '{' dir with
    | (preB, postB, found) =>
      if preB.contains '}' then none
      else if found then
        match goCutChar '}' postB with
        | (pathVar, rem, fnd2) =>
          if !fnd2 then none
          else if pathVar.contains '{' then none
          else
            match md with
            | none => none
            | some mi =>
              match lookupP mi.fields pathVar with
              | none => none
              | some p =>
                let mt := fmtMatcher.mk emptyMux preB rem p pathVar p.size
                let i := scanIdx mux.matchers mt
                if i < mux.matchers.length then
                  match insertDirs md sd hs (mux.matchers.getD i mt).child rest with
                  | none => none
                  | some c' =>
                    some (mux.withMatchers
                      (mux.matchers.set i ((mux.matchers.getD i mt).withChild c')))
                else
                  match insertDirs md sd hs emptyMux rest with
                  | none => none
                  | some c' => some (mux.withMatchers (mux.matchers ++ [mt.withChild c']))
      else
        if dir == [] then none
        else
          match lookupM mux.m dir with
          | some child =>
            match insertDirs md sd hs child rest with
            | none => none
            | some c' => some (mux.withM (setM mux.m dir c'))
          | none =>
            match insertDirs md sd hs emptyMux rest with
            | none => none
            | some c' => some (mux.withM (setM mux.m dir c'))

/-- mkRoute from mux.go: split the path on '/', drop the leading empty
segment, record a trailing empty segment as servesDir, then descend.
none models log.Fatalln on a path not starting with '/'. -/
def mkRoute (mux : Mux) (path : GoStr) (md : Option MetaImage) (hs : List GoStr) :
    Option Mux :=
  match path with
  | [] => none
  | c :: _ =>
    if c ≠ '/' then none
    else
      let dirs := (splitOnChar '/' path).tail
      if dirs.getLast? = some ([] : GoStr) then insertDirs md true hs mux dirs.dropLast
      else insertDirs md false hs mux dirs

/- ---------- matching (matchDir, mux.go) ---------- -/

/-- Result triple of matchDir: (exact match, fallback, patches). -/
abbrev Res := Option Mux × Option Mux × List mdPatch

/-- Qualification of one matcher against the head segment: the two
boundary checks of matchDir, then the field parser on the captured
text; none when any of them rejects. -/
def qualifies (mt : fmtMatcher) (dir : GoStr) : Option PVal :=
  if goHasPre mt.pre dir && goHasSuf mt.suf (dir.drop mt.pre.length) then
    fieldFn mt.fp.kind (capturedText mt.pre mt.suf dir)
  else none

/-- The CapturePatch built from a qualifying matcher: offset and size
come from the matcher's FieldParser. -/
def mkPatch (mt : fmtMatcher) (v : PVal) : mdPatch :=
  { source := v, offset := mt.fp.offset, size := mt.fp.size }

/-- The matcher loop of matchDir, followed by the trailing servesDir
check.  recur is the recursive match of the remaining segments against
a child; nd is the node whose matchers are scanned; fb and fbps are the
fallback candidate and its patches accumulated so far. -/
def scanM (recur : Mux → Res) (nd : Mux) (dir : GoStr) :
    List fmtMatcher → Option Mux → List mdPatch → Res
  | [], fb, fbps =>
    if fb.isNone && nd.servesDir then (none, some nd, [])
    else (none, fb, fbps)
  | mt :: ms, fb, fbps =>
    match qualifies mt dir with
    | none => scanM recur nd dir ms fb fbps
    | some v =>
      match recur mt.child with
      | (some node, _, ps) => (some node, none, mkPatch mt v :: ps)
      | (none, fb2, ps) =>
        if fb.isNone then scanM recur nd dir ms fb2 (mkPatch mt v :: ps)
        else scanM recur nd dir ms fb fbps

/-- matchDir from mux.go: with no segments left the node itself is the
exact match; otherwise try the literal child map first, returning its
exact match immediately, then scan the matchers in order. -/
def matchDir : List GoStr → Mux → Res
  | [], mux => (some mux, none, [])
  | dir :: rest, mux =>
    match lookupM mux.m dir with
    | some nmux =>
      match matchDir rest nmux with
      | (some node, _, ps) => (some node, none, ps)
      | (none, fb, ps) => scanM (matchDir rest) mux dir mux.matchers fb ps
    | none => scanM (matchDir rest) mux dir mux.matchers none []

/- ---------- dispatch outcome (ServeHTTP, mux.go) ---------- -/

/-- Outcome of dispatching a matched request in ServeHTTP. -/
inductive Outcome where
  | notFound
  | methodNotAllowed
  | dispatched
deriving DecidableEq, Repr

/-- The dispatch logic of ServeHTTP after matchDir: fall back when
there is no exact match, answer not-found when neither exists, then
look the request method up in the matched node's handler map and
answer method-not-allowed when it is absent. -/
def serveDirs (mux : Mux) (dirs : List GoStr) (method : GoStr) : Outcome :=
  match matchDir dirs mux with
  | (some nd, _, _) =>
    if nd.methodHandlers.contains method then .dispatched else .methodNotAllowed
  | (none, some nd, _) =>
    if nd.methodHandlers.contains method then .dispatched else .methodNotAllowed
  | (none, none, _) => .notFound

/- ---------- metadata binding (ServeHTTP, mux.go) ---------- -/

/-- Little-endian byte image of a natural number, sz bytes long: what
lives at the address of the parsed local value. -/
def natLEBytes : Nat → Nat → List Nat
  | _, 0 => []
  | n, sz + 1 => n % 256 :: natLEBytes (n / 256) sz

/-- The sz bytes copied from a patch source pointer.  Integer values
are the little-endian image of the parsed 64-bit local; for a string
the code copies the string header, which we abstract as a byte image
determined by the string's characters. -/
def pvalBytes : PVal → Nat → List Nat
  | .vuint n, sz => natLEBytes n sz
  | .vint i, sz => natLEBytes (i.emod (2 ^ 64)).toNat sz
  | .vstr s, sz => natLEBytes s.length 8 ++ (s.map Char.toNat) |>.take sz

/-- copy(dst, src) where dst is the Size-byte window of the buffer at
Offset: overwrite that byte range, leaving length and the rest of the
buffer unchanged. -/
def bufWrite (b : Buf) (off : Nat) (src : List Nat) : Buf :=
  b.take off ++ src.take (b.length - off) ++ b.drop (off + src.length)

/-- Apply one capture patch to a cloned metadata buffer. -/
def applyPatch (b : Buf) (p : mdPatch) : Buf :=
  bufWrite b p.offset (pvalBytes p.source p.size)

/-- The patch loop of ServeHTTP: start from the template's prototype
bytes and apply the patches in order. -/
def bindRaw (tmpl : Buf) (patches : List mdPatch) : Buf :=
  patches.foldl applyPatch tmpl

/-- A heap of byte buffers, modelling the live allocations. -/
abbrev Heap := List Buf

/-- Read the buffer at an index. -/
def heapGet (h : Heap) (i : Nat) : Buf := h.getD i []

/-- Overwrite the buffer at an index (a mutation of that buffer). -/
def heapWrite (h : Heap) (i : Nat) (b : Buf) : Heap := h.set i b

/-- The binding step of ServeHTTP: make([]byte, ...) allocates a fresh
buffer (a new heap index), the template bytes are copied into it and
the patches applied; the pair returned is the new heap and the new
buffer's index. -/
def bindMeta (h : Heap) (tmplIdx : Nat) (patches : List mdPatch) : Heap × Nat :=
  (h ++ [bindRaw (heapGet h tmplIdx) patches], h.length)

/- ---------- general lemmas about the embedding ---------- -/

theorem goHasPre_length {p s : GoStr} (h : goHasPre p s = true) :
    p.length ≤ s.length := by
  have he : s.take p.length = p := by simpa [goHasPre] using h
  have := congrArg List.length he
  simp [List.length_take] at this
  omega

theorem goHasSuf_length {p s : GoStr} (h : goHasSuf p s = true) :
    p.length ≤ s.length := by
  have he : s.drop (s.length - p.length) = p := by simpa [goHasSuf] using h
  have := congrArg List.length he
  simp [List.length_drop] at this
  omega

/- ---------- C10 ---------- -/

/-- C10: whenever both qualification checks of matchDir pass — the
segment starts with the matcher's literal head and the remainder after
stripping it ends with the matcher's literal tail — the combined length
of the two literals is at most the segment's length, so the captured
substring dir[len(pre) : len(dir)-len(suf)] is within bounds and the
extraction cannot panic. -/
theorem c10_capture_in_bounds (pre suf dir : GoStr)
    (h1 : goHasPre pre dir = true)
    (h2 : goHasSuf suf (dir.drop pre.length) = true) :
    pre.length + suf.length ≤ dir.length := by
  have hp := goHasPre_length h1
  have hs := goHasSuf_length h2
  simp [List.length_drop] at hs
  omega

/-- C10 witness: the checks pass for segment "city-x" against literal
head "city-" and empty tail, and the bound holds there. -/
theorem c10_capture_in_bounds_witness :
    ['c','i','t','y','-'].length + ([] : GoStr).length ≤
      ['c','i','t','y','-','x'].length :=
  c10_capture_in_bounds ['c','i','t','y','-'] [] ['c','i','t','y','-','x']
    (by decide) (by decide)

/- ---------- C6 ---------- -/

/-- A string with a non-digit character never accumulates to a value. -/
theorem decDigitsAux_none {s : GoStr} (c : Char) (hc : c ∈ s)
    (hd : digToNat c = none) : ∀ acc, decDigitsAux s acc = none := by
  induction s with
  | nil => cases hc
  | cons x xs ih =>
    intro acc
    rcases List.mem_cons.mp hc with h | h
    · subst h
      simp [decDigitsAux, hd]
    · cases hx : digToNat x with
      | none => simp [decDigitsAux, hx]
      | some d => simp [decDigitsAux, hx, ih h]

/-- C6: integer captured-value parsing is base-10 with strict width
bounds: "255" parses into an 8-bit unsigned field as 255, "256" fails
for 8 bits and succeeds for 16 bits; every successful unsigned parse is
below 2^width and every successful signed parse lies within the two's
complement range of the width; text containing a non-digit character is
always rejected (returning none, never crashing). -/
theorem c6_int_width_bounds :
    getParseUint 8 ['2','5','5'] = some 255 ∧
    getParseUint 8 ['2','5','6'] = none ∧
    getParseUint 16 ['2','5','6'] = some 256 ∧
    (∀ bs s n, getParseUint bs s = some n → n < 2 ^ effBits bs) ∧
    (∀ bs s i, getParseInt bs s = some i →
      -(2 ^ (effBits bs - 1) : Int) ≤ i ∧ i < 2 ^ (effBits bs - 1)) ∧
    (∀ bs s c, c ∈ s → digToNat c = none → getParseUint bs s = none) := by
  refine ⟨by decide, by decide, by decide, ?_, ?_, ?_⟩
  · intro bs s n h
    unfold getParseUint at h
    cases hd : decDigits s with
    | none => simp [hd] at h
    | some m =>
      rw [hd] at h
      by_cases hm : m < 2 ^ effBits bs
      · simp [hm] at h
        omega
      · simp [hm] at h
  · intro bs s i h
    unfold getParseInt at h
    cases s with
    | nil => simp at h
    | cons c rest =>
      simp only at h
      cases hd : decDigits (if c = '-' ∨ c = '+' then rest else c :: rest) with
      | none => rw [hd] at h; simp at h
      | some m =>
        rw [hd] at h
        by_cases hneg : c = '-'
        · simp only [hneg, if_pos rfl] at h
          by_cases hm : m ≤ 2 ^ (effBits bs - 1)
          · simp [hm] at h
            constructor
            · rw [← h]
              simp
              exact_mod_cast hm
            · rw [← h]
              have : (0 : Int) < 2 ^ (effBits bs - 1) := by positivity
              have hm' : (0 : Int) ≤ (m : Int) := by positivity
              omega
          · simp [hm] at h
        · simp only [if_neg hneg] at h
          by_cases hm : m < 2 ^ (effBits bs - 1)
          · simp [hm] at h
            constructor
            · rw [← h]
              have : (0 : Int) ≤ (m : Int) := by positivity
              have : (0 : Int) < 2 ^ (effBits bs - 1) := by positivity
              omega
            · rw [← h]
              exact_mod_cast hm
          · simp [hm] at h
  · intro bs s c hc hd
    have hne : s ≠ [] := by rintro rfl; cases hc
    have : decDigits s = none := by
      unfold decDigits
      cases s with
      | nil => rfl
      | cons x xs => exact decDigitsAux_none c hc hd 0
    simp [getParseUint, this]

/-- C6 witness: the range bound applied to parsing "200" as 8-bit. -/
theorem c6_int_width_bounds_witness : (200 : Nat) < 2 ^ effBits 8 :=
  c6_int_width_bounds.2.2.2.1 8 ['2','0','0'] 200 (by decide)

/- ---------- C8 ---------- -/

theorem heapGet_append_lt (h : Heap) (l : Heap) {n : Nat} (hn : n < h.length) :
    heapGet (h ++ l) n = heapGet h n := by
  simp [heapGet, List.getD_eq_getElem?_getD, List.getElem?_append, hn]

theorem heapGet_append_self (h : Heap) (b : Buf) :
    heapGet (h ++ [b]) h.length = b := by
  simp [heapGet, List.getD_eq_getElem?_getD, List.getElem?_append]

theorem heapGet_write_ne (h : Heap) {i j : Nat} (b : Buf) (hij : i ≠ j) :
    heapGet (heapWrite h i b) j = heapGet h j := by
  simp [heapGet, heapWrite, List.getD_eq_getElem?_getD, List.getElem?_set_ne hij]

/-- Both bind steps of one request pair, as taken by two requests
hitting the same matched node: the heap after both, and the two
instance indices. -/
def bindTwice (h : Heap) (t : Nat) (ps : List mdPatch) : Heap × Nat × Nat :=
  ((bindMeta (bindMeta h t ps).1 t ps).1, (bindMeta h t ps).2,
    (bindMeta (bindMeta h t ps).1 t ps).2)

/-- C8: binding allocates a fresh buffer per request (a heap index
distinct from the template's and from every other instance's), fills it
with the template's prototype bytes patched in order, and never touches
the template: after two binds of the same patch list against the same
template the two instances are distinct buffers with identical
contents, the template's bytes are unchanged, and overwriting one
instance changes neither the other instance nor the template. -/
theorem c8_bind_fresh_and_immutable (h : Heap) (t : Nat) (ps : List mdPatch)
    (ht : t < h.length) :
    (bindTwice h t ps).2.1 ≠ (bindTwice h t ps).2.2 ∧
    (bindTwice h t ps).2.1 ≠ t ∧
    (bindTwice h t ps).2.2 ≠ t ∧
    heapGet (bindTwice h t ps).1 t = heapGet h t ∧
    heapGet (bindTwice h t ps).1 (bindTwice h t ps).2.1 =
      bindRaw (heapGet h t) ps ∧
    heapGet (bindTwice h t ps).1 (bindTwice h t ps).2.2 =
      bindRaw (heapGet h t) ps ∧
    (∀ b : Buf,
      heapGet (heapWrite (bindTwice h t ps).1 (bindTwice h t ps).2.1 b)
          (bindTwice h t ps).2.2 =
        heapGet (bindTwice h t ps).1 (bindTwice h t ps).2.2 ∧
      heapGet (heapWrite (bindTwice h t ps).1 (bindTwice h t ps).2.1 b) t =
        heapGet h t) := by
  have e1 : bindMeta h t ps =
      (h ++ [bindRaw (heapGet h t) ps], h.length) := rfl
  have hgt : heapGet (h ++ [bindRaw (heapGet h t) ps]) t = heapGet h t :=
    heapGet_append_lt h _ ht
  have e2 : bindTwice h t ps =
      (h ++ [bindRaw (heapGet h t) ps] ++
         [bindRaw (heapGet (h ++ [bindRaw (heapGet h t) ps]) t) ps],
       h.length, (h ++ [bindRaw (heapGet h t) ps]).length) := rfl
  rw [e2]
  simp only [hgt, List.length_append, List.length_cons, List.length_nil]
  have ht2 : t < (h ++ [bindRaw (heapGet h t) ps]).length := by
    simp; omega
  have hl1 : h.length < (h ++ [bindRaw (heapGet h t) ps]).length := by simp
  refine ⟨by omega, by omega, by omega, ?_, ?_, ?_, ?_⟩
  · rw [heapGet_append_lt _ _ ht2, hgt]
  · rw [heapGet_append_lt _ _ hl1, heapGet_append_self]
  · have : h.length + 1 = (h ++ [bindRaw (heapGet h t) ps]).length := by simp
    rw [this, heapGet_append_self]
  · intro b
    constructor
    · exact heapGet_write_ne _ _ (by omega)
    · rw [heapGet_write_ne _ _ (by omega), heapGet_append_lt _ _ ht2, hgt]

/-- C8 witness: two binds of an empty patch list against a one-buffer
heap produce buffers 1 and 2, both copies of the template. -/
theorem c8_bind_fresh_and_immutable_witness :
    (bindTwice [[7, 7]] 0 []).2.1 ≠ (bindTwice [[7, 7]] 0 []).2.2 ∧
    heapGet (bindTwice [[7, 7]] 0 []).1 0 = heapGet [[7, 7]] 0 :=
  ⟨(c8_bind_fresh_and_immutable [[7, 7]] 0 [] (by decide)).1,
   (c8_bind_fresh_and_immutable [[7, 7]] 0 [] (by decide)).2.2.2.1⟩

/- ---------- concrete fixtures shared by the scenario claims ---------- -/

def mGET : GoStr := ['G', 'E', 'T']

def mPOST : GoStr := ['P', 'O', 'S', 'T']

def hGET : List GoStr := [mGET]

def hPOST : List GoStr := [mPOST]

/-- Field parser of a 16-byte string struct field at offset 0. -/
def fpStr16 : pathFieldParser := { kind := .fstr, offset := 0, size := 16 }

/-- Metadata template with one string field reachable as "x". -/
def mdImgX : MetaImage :=
  { raw := List.replicate 16 0, fields := [(['x'], fpStr16)] }

/-- Registration of the sibling routes "/a" (literal, GET) and "/{x}"
(pattern, POST) on a fresh mux. -/
def rootAB? : Option Mux :=
  (mkRoute emptyMux ['/', 'a'] none hGET).bind
    (fun r => mkRoute r ['/', '{', 'x', '}'] (some mdImgX) hPOST)

def rootAB : Mux := rootAB?.getD emptyMux

/- ---------- C2 ---------- -/

/-- C2: the literal child map is consulted first and an exact match
from it is returned at once, before any matcher is tried; with sibling
registrations "/a" (literal, GET handler) and "/{x}" (pattern, POST
handler), matching "a" yields the literal node (the one carrying the
GET handler), no fallback and no captures. -/
theorem c2_literal_first :
    (∀ (mux : Mux) (dir : GoStr) (rest : List GoStr) (nmux node : Mux)
        (fb : Option Mux) (ps : List mdPatch),
      lookupM mux.m dir = some nmux →
      matchDir rest nmux = (some node, fb, ps) →
      matchDir (dir :: rest) mux = (some node, none, ps)) ∧
    rootAB?.isSome = true ∧
    (matchDir [['a']] rootAB).1.map Mux.methodHandlers = some hGET ∧
    (matchDir [['a']] rootAB).2.1 = none ∧
    (matchDir [['a']] rootAB).2.2 = [] := by
  refine ⟨?_, rfl, rfl, rfl, rfl⟩
  intro mux dir rest nmux node fb ps h1 h2
  simp [matchDir, h1, h2]

/-- C2 witness: the general rule applied to a one-child node whose
child matches exactly. -/
theorem c2_literal_first_witness :
    matchDir [['a']] (Mux.mk [] none false [(['a'], emptyMux)] []) =
      (some emptyMux, none, []) :=
  c2_literal_first.1 (Mux.mk [] none false [(['a'], emptyMux)] [])
    ['a'] [] emptyMux emptyMux none [] rfl rfl

/- ---------- C5 ---------- -/

/-- C5: a value-parse failure disqualifies exactly the failing matcher:
when the two boundary checks pass but the field parser rejects the
captured text, the scan result over this matcher list equals the scan
over the remaining matchers with unchanged state — no error outcome
exists and the request is never aborted. -/
theorem c5_parse_failure_skips (recur : Mux → Res) (nd : Mux) (dir : GoStr)
    (mt : fmtMatcher) (ms : List fmtMatcher) (fb : Option Mux)
    (fbps : List mdPatch)
    (h1 : goHasPre mt.pre dir = true)
    (h2 : goHasSuf mt.suf (dir.drop mt.pre.length) = true)
    (h3 : fieldFn mt.fp.kind (capturedText mt.pre mt.suf dir) = none) :
    scanM recur nd dir (mt :: ms) fb fbps = scanM recur nd dir ms fb fbps := by
  have hq : qualifies mt dir = none := by simp [qualifies, h1, h2, h3]
  simp [scanM, hq]

/-- Matcher for an 8-bit unsigned field named "n", whole segment, with
a GET-handling child. -/
def mtU8 : fmtMatcher :=
  .mk (Mux.mk hGET none false [] []) [] []
    { kind := .fuint 8, offset := 0, size := 1 } ['n'] 1

/-- C5 witness: "abc" fails the uint8 parse, so the scan over [mtU8]
equals the scan over []. -/
theorem c5_parse_failure_skips_witness :
    scanM (matchDir []) emptyMux ['a', 'b', 'c'] [mtU8] none [] =
      scanM (matchDir []) emptyMux ['a', 'b', 'c'] [] none [] :=
  c5_parse_failure_skips (matchDir []) emptyMux ['a', 'b', 'c'] mtU8 [] none []
    (by decide) (by decide) (by decide)

/- ---------- C3 ---------- -/

/-- C3: matchers are tried in list (registration) order: if every
earlier matcher either fails to qualify or its recursion finds no exact
match, the first matcher that qualifies and whose child recursion
returns an exact match decides the result, and the patch list returned
is that recursion's list with this matcher's capture patch prepended
(root-to-leaf order); the matchers after it are never reached. -/
theorem c3_first_qualifying_wins (recur : Mux → Res) (nd : Mux) (dir : GoStr)
    (ms1 : List fmtMatcher) (mt : fmtMatcher) (ms2 : List fmtMatcher)
    (v : PVal) (node : Mux) (fb2 : Option Mux) (ps : List mdPatch)
    (hpre : ∀ m' ∈ ms1, qualifies m' dir = none ∨ (recur m'.child).1 = none)
    (hq : qualifies mt dir = some v)
    (hr : recur mt.child = (some node, fb2, ps)) :
    ∀ (fb : Option Mux) (fbps : List mdPatch),
      scanM recur nd dir (ms1 ++ mt :: ms2) fb fbps =
        (some node, none, mkPatch mt v :: ps) := by
  induction ms1 with
  | nil =>
    intro fb fbps
    simp [scanM, hq, hr]
  | cons m' ms1' ih =>
    intro fb fbps
    have hrest : ∀ m'' ∈ ms1', qualifies m'' dir = none ∨ (recur m''.child).1 = none :=
      fun m'' hm'' => hpre m'' (List.mem_cons_of_mem _ hm'')
    rcases hpre m' (List.mem_cons_self _ _) with hnone | hnoex
    · simpa [scanM, hnone] using ih hrest fb fbps
    · cases hv : qualifies m' dir with
      | none => simpa [scanM, hv] using ih hrest fb fbps
      | some w =>
        rcases hre : recur m'.child with ⟨o1, o2, l⟩
        rw [hre] at hnoex
        simp only at hnoex
        subst hnoex
        by_cases hfb : fb.isNone
        · simpa [scanM, hv, hre, hfb] using ih hrest o2 (mkPatch m' w :: l)
        · simpa [scanM, hv, hre, hfb] using ih hrest fb fbps

/-- Matcher for a whole-segment string field "x" with a POST-handling
child. -/
def mtStr : fmtMatcher :=
  .mk (Mux.mk hPOST none false [] []) [] [] fpStr16 ['x'] 16

/-- C3 witness: with matchers [mtU8, mtStr] and segment "abc", the
uint8 matcher fails to parse, so the string matcher decides the result
and its patch is prepended to the child recursion's empty list. -/
theorem c3_first_qualifying_wins_witness :
    scanM (matchDir []) emptyMux ['a', 'b', 'c'] [mtU8, mtStr] none [] =
      (some (Mux.mk hPOST none false [] []), none,
        [mkPatch mtStr (.vstr ['a', 'b', 'c'])]) :=
  c3_first_qualifying_wins (matchDir []) emptyMux ['a', 'b', 'c'] [mtU8] mtStr []
    (.vstr ['a', 'b', 'c']) (Mux.mk hPOST none false [] []) none []
    (by
      intro m' hm'
      rw [List.mem_singleton] at hm'
      subst hm'
      left
      decide)
    (by decide) rfl none []

/- ---------- dispatch lemmas for matchDir ---------- -/

/-- With no literal child for the head segment, matchDir goes straight
to the matcher scan with an empty fallback state. -/
theorem matchDir_cons_lookup_none (mux : Mux) {dir : GoStr} (rest : List GoStr)
    (h : lookupM mux.m dir = none) :
    matchDir (dir :: rest) mux =
      scanM (matchDir rest) mux dir mux.matchers none [] := by
  simp [matchDir, h]

/-- An exact match out of the literal child is returned at once. -/
theorem matchDir_cons_exact (mux : Mux) {dir : GoStr} {rest : List GoStr}
    {nmux node : Mux} {fb : Option Mux} {ps : List mdPatch}
    (h : lookupM mux.m dir = some nmux)
    (h2 : matchDir rest nmux = (some node, fb, ps)) :
    matchDir (dir :: rest) mux = (some node, none, ps) := by
  simp [matchDir, h, h2]

/-- A fallback-only literal result seeds the matcher scan's state. -/
theorem matchDir_cons_noexact (mux : Mux) {dir : GoStr} {rest : List GoStr}
    {nmux : Mux} {fb : Option Mux} {ps : List mdPatch}
    (h : lookupM mux.m dir = some nmux)
    (h2 : matchDir rest nmux = (none, fb, ps)) :
    matchDir (dir :: rest) mux = scanM (matchDir rest) mux dir mux.matchers fb ps := by
  simp [matchDir, h, h2]

/- ---------- C4 ---------- -/

/-- When a scan over the matcher list of a directory-root node yields
no exact match, it always yields a fallback (the node itself when
nothing deeper supplied one). -/
theorem scanM_fallback_isSome (recur : Mux → Res) (nd : Mux) (dir : GoStr)
    (hsd : nd.servesDir = true) :
    ∀ (ms : List fmtMatcher) (fb : Option Mux) (fbps : List mdPatch),
      (scanM recur nd dir ms fb fbps).1 = none →
      (scanM recur nd dir ms fb fbps).2.1.isSome = true := by
  intro ms
  induction ms with
  | nil =>
    intro fb fbps h
    cases fb with
    | none => simp [scanM, hsd]
    | some f => simp [scanM]
  | cons mt ms' ih =>
    intro fb fbps h
    cases hv : qualifies mt dir with
    | none =>
      simp only [scanM, hv] at h ⊢
      exact ih fb fbps h
    | some w =>
      rcases hre : recur mt.child with ⟨o1, o2, l⟩
      cases o1 with
      | some node => simp only [scanM, hv, hre] at h; simp at h
      | none =>
        simp only [scanM, hv, hre] at h ⊢
        by_cases hfb : fb.isNone
        · rw [if_pos hfb] at h ⊢
          exact ih o2 (mkPatch mt w :: l) h
        · rw [if_neg hfb] at h ⊢
          exact ih fb fbps h

/-- Registration of "/docs/" with a GET handler on a fresh mux. -/
def rootDocs? : Option Mux :=
  mkRoute emptyMux ['/', 'd', 'o', 'c', 's', '/'] none hGET

/-- The terminal node the "/docs/" registration creates: a directory
root holding the GET handler. -/
def docsNode : Mux := Mux.mk hGET none true [] []

def rootDocs : Mux := rootDocs?.getD emptyMux

/-- C4: when nothing yields an exact match and the node is a directory
root, the node becomes the fallback: a directory-root node always
produces a fallback when it produces no exact match, a leaf directory
root is itself the fallback (with no captures), and concretely, after
registering only "/docs/", every path strictly inside it — "docs"
followed by at least one more segment — matches nothing exactly and
falls back to the "/docs/" node with an empty capture list. -/
theorem c4_directory_fallback :
    (∀ (mux : Mux) (dirs : List GoStr), mux.servesDir = true →
      (matchDir dirs mux).1 = none →
      (matchDir dirs mux).2.1.isSome = true) ∧
    (∀ (mux : Mux) (dir : GoStr) (rest : List GoStr),
      mux.m = [] → mux.matchers = [] → mux.servesDir = true →
      matchDir (dir :: rest) mux = (none, some mux, [])) ∧
    rootDocs? = some (Mux.mk [] none false [(['d', 'o', 'c', 's'], docsNode)] []) ∧
    (∀ (d : GoStr) (rest : List GoStr),
      matchDir (['d', 'o', 'c', 's'] :: d :: rest) rootDocs =
        (none, some docsNode, [])) := by
  refine ⟨?_, ?_, rfl, ?_⟩
  · intro mux dirs hsd h
    cases dirs with
    | nil => rw [matchDir] at h; simp at h
    | cons dir rest =>
      cases hl : lookupM mux.m dir with
      | none =>
        rw [matchDir_cons_lookup_none mux rest hl] at h ⊢
        exact scanM_fallback_isSome _ mux dir hsd _ none [] h
      | some nmux =>
        rcases hr : matchDir rest nmux with ⟨o1, o2, l⟩
        cases o1 with
        | some node => rw [matchDir_cons_exact mux hl hr] at h; simp at h
        | none =>
          rw [matchDir_cons_noexact mux hl hr] at h ⊢
          exact scanM_fallback_isSome _ mux dir hsd _ o2 l h
  · intro mux dir rest hm hms hsd
    rw [matchDir, hm, hms]
    simp [lookupM, scanM, hsd]
  · intro d rest
    have hdocs : matchDir (d :: rest) docsNode = (none, some docsNode, []) := by
      rw [matchDir]
      simp [docsNode, Mux.m, Mux.matchers, lookupM, scanM, Mux.servesDir]
    have hl : lookupM rootDocs.m ['d', 'o', 'c', 's'] = some docsNode := rfl
    rw [matchDir_cons_noexact rootDocs hl hdocs]
    rfl

/-- C4 witness: the directory-root fallback rules applied at the
concrete leaf "/docs/" node and the segment list ["docs", "extra"]. -/
theorem c4_directory_fallback_witness :
    matchDir [['e', 'x', 't', 'r', 'a']] docsNode = (none, some docsNode, []) ∧
    (matchDir [['d', 'o', 'c', 's'], ['e', 'x', 't', 'r', 'a']] rootDocs).2.1.isSome
      = true :=
  ⟨c4_directory_fallback.2.1 docsNode ['e', 'x', 't', 'r', 'a'] [] rfl rfl rfl,
   by
    rw [c4_directory_fallback.2.2.2 ['e', 'x', 't', 'r', 'a'] []]
    rfl⟩

/- ---------- C9 ---------- -/

/-- strings.Cut finds nothing when the separator does not occur. -/
theorem goCutChar_of_not_mem {c : Char} {s : GoStr} (h : c ∉ s) :
    goCutChar c s = (s, [], false) := by
  induction s with
  | nil => rfl
  | cons x xs ih =>
    have hx : ¬ x = c := fun he => h (he ▸ List.mem_cons_self x xs)
    have hxs : c ∉ xs := fun hm => h (List.mem_cons_of_mem x hm)
    rw [goCutChar, if_neg hx, ih hxs]

/-- A plain literal segment: non-empty and bracket-free. -/
def litSeg (d : GoStr) : Prop := d ≠ [] ∧ '{' ∉ d ∧ '}' ∉ d

/-- Inserting a literal segment into a fresh node creates exactly one
literal child holding the rest of the registration, and attaches no
handlers, metadata, matchers or directory flag at this level. -/
theorem insertDirs_lit_shape {d : GoStr} (rest : List GoStr) (md : Option MetaImage)
    (sd : Bool) (hs : List GoStr) {r : Mux} (hd : litSeg d)
    (h : insertDirs md sd hs emptyMux (d :: rest) = some r) :
    ∃ c, insertDirs md sd hs emptyMux rest = some c ∧
      r = Mux.mk [] none false [(d, c)] [] := by
  rw [insertDirs, goCutChar_of_not_mem hd.2.1] at h
  have h3 : d.contains '}' = false := by simpa using hd.2.2
  have h1 : (d == ([] : GoStr)) = false := beq_eq_false_iff_ne.mpr hd.1
  cases hrec : insertDirs md sd hs emptyMux rest with
  | none =>
    have hrec2 : insertDirs md sd hs (Mux.mk [] none false [] []) rest = none := hrec
    simp [h3, h1, lookupM, emptyMux, Mux.m, hrec2] at h
  | some c =>
    have hrec2 : insertDirs md sd hs (Mux.mk [] none false [] []) rest = some c := hrec
    simp only [h3, h1, Bool.false_eq_true, if_false, lookupM, emptyMux, Mux.m,
      hrec2, setM, Mux.withM, Option.some.injEq] at h
    exact ⟨c, rfl, h.symm⟩

/-- Matching a non-empty strict prefix of a single literal registration
reaches the intermediate node exactly, with no fallback and no
captures, and that node carries no handlers. -/
theorem matchDir_strict_lit (md : Option MetaImage) (sd : Bool) (hs : List GoStr) :
    ∀ (p q : List GoStr) (r : Mux), p ≠ [] → q ≠ [] →
    (∀ d ∈ p ++ q, litSeg d) →
    insertDirs md sd hs emptyMux (p ++ q) = some r →
    ∃ node, matchDir p r = (some node, none, []) ∧ node.methodHandlers = [] := by
  intro p
  induction p with
  | nil => intro q r hp; exact absurd rfl hp
  | cons d p' ih =>
    intro q r _ hq hlit hins
    rw [List.cons_append] at hins
    rcases insertDirs_lit_shape (p' ++ q) md sd hs (hlit d (by simp)) hins with
      ⟨c, hc, hr⟩
    subst hr
    have hl : lookupM [(d, c)] d = some c := by simp [lookupM]
    cases p' with
    | nil =>
      cases q with
      | nil => exact absurd rfl hq
      | cons e q' =>
        rcases insertDirs_lit_shape q' md sd hs (hlit e (by simp)) hc with
          ⟨c', _, hcshape⟩
        refine ⟨c, matchDir_cons_exact _ hl rfl, ?_⟩
        rw [hcshape]
        rfl
    | cons d2 p'' =>
      rcases ih q c (by simp) hq
          (fun x hx => hlit x (List.mem_cons_of_mem d hx)) hc with ⟨node, hm, hh⟩
      exact ⟨node, matchDir_cons_exact _ hl hm, hh⟩

/-- C9: a node reached with no segments left is an exact-match
candidate regardless of handlers; hence after registering one
multi-segment literal path on a fresh mux, any non-empty strict prefix
of its segments matches the intermediate node exactly and — that node
having no handlers — dispatch answers method-not-allowed for every
method, not not-found. -/
theorem c9_prefix_method_not_allowed :
    (∀ mux : Mux, matchDir [] mux = (some mux, none, [])) ∧
    (∀ (p q : List GoStr) (md : Option MetaImage) (sd : Bool)
        (hs : List GoStr) (r : Mux) (method : GoStr),
      p ≠ [] → q ≠ [] → (∀ d ∈ p ++ q, litSeg d) →
      insertDirs md sd hs emptyMux (p ++ q) = some r →
      serveDirs r p method = .methodNotAllowed) := by
  refine ⟨fun mux => rfl, ?_⟩
  intro p q md sd hs r method hp hq hlit hins
  rcases matchDir_strict_lit md sd hs p q r hp hq hlit hins with ⟨node, hm, hh⟩
  simp [serveDirs, hm, hh]

/-- The mux obtained by registering the literal path "/a/b" (as the
segment list ["a", "b"]) with a GET handler on a fresh mux. -/
def rootABlit : Mux :=
  (insertDirs none false hGET emptyMux [['a'], ['b']]).getD emptyMux

/-- C9 witness: after registering only "/a/b", the request "/a" is
answered method-not-allowed (for GET), not not-found. -/
theorem c9_prefix_method_not_allowed_witness :
    serveDirs rootABlit [['a']] mGET = .methodNotAllowed :=
  c9_prefix_method_not_allowed.2 [['a']] [['b']] none false hGET rootABlit mGET
    (by simp) (by simp)
    (by
      intro d hd
      simp only [List.mem_append, List.mem_singleton] at hd
      rcases hd with h | h <;> subst h <;> exact ⟨by simp, by decide, by decide⟩)
    rfl

/- ---------- C7 ---------- -/

/-- Splitting a string that does not contain the separator yields the
string as a single segment. -/
theorem splitOnChar_of_not_mem {c : Char} {s : GoStr} (h : c ∉ s) :
    splitOnChar c s = [s] := by
  induction s with
  | nil => rfl
  | cons x xs ih =>
    have hx : ¬ x = c := fun he => h (he ▸ List.mem_cons_self x xs)
    have hxs : c ∉ xs := fun hm => h (List.mem_cons_of_mem x hm)
    rw [splitOnChar, ih hxs]
    simp [hx]

theorem goHasPre_nil (s : GoStr) : goHasPre [] s = true := by
  simp [goHasPre]

theorem goHasSuf_nil (s : GoStr) : goHasSuf [] s = true := by
  simp [goHasSuf]

theorem capturedText_nil_nil (s : GoStr) : capturedText [] [] s = s := by
  simp [capturedText]

/-- Metadata template with one string field reachable as "v". -/
def mdImgV : MetaImage :=
  { raw := List.replicate 16 0, fields := [(['v'], fpStr16)] }

/-- Registration of "/{v}" with a GET handler on a fresh mux. -/
def rootV? : Option Mux :=
  mkRoute emptyMux ['/', '{', 'v', '}'] (some mdImgV) hGET

/-- The terminal node the "/{v}" registration creates. -/
def nodeV : Mux := Mux.mk hGET (some mdImgV) false [] []

/-- The matcher the "/{v}" registration creates. -/
def mtV : fmtMatcher := .mk nodeV [] [] fpStr16 ['v'] 16

def rootV : Mux := Mux.mk [] none false [] [mtV]

/-- C7: registering "/{v}" over a string field produces one matcher
with empty literal head and tail; string parsing accepts every captured
text verbatim; and for every segment string s free of '/', matching the
split of the path "/s" yields exactly the terminal node with a single
capture binding the field to s. -/
theorem c7_string_capture_verbatim :
    rootV? = some rootV ∧
    (∀ t : GoStr, parseString t = some (.vstr t)) ∧
    (∀ s : GoStr, '/' ∉ s →
      matchDir (splitOnChar '/' ('/' :: s)).tail rootV =
        (some nodeV, none, [{ source := .vstr s, offset := 0, size := 16 }])) := by
  refine ⟨rfl, fun t => rfl, ?_⟩
  intro s hs
  have hsplit : (splitOnChar '/' ('/' :: s)).tail = [s] := by
    rw [splitOnChar, splitOnChar_of_not_mem hs]
    simp
  rw [hsplit]
  have hq : qualifies mtV s = some (.vstr s) := by
    simp [qualifies, mtV, fmtMatcher.pre, fmtMatcher.suf, fmtMatcher.fp,
      goHasPre_nil, goHasSuf_nil, capturedText_nil_nil, fpStr16, fieldFn,
      parseString]
  have hre : matchDir [] mtV.child = (some nodeV, none, []) := rfl
  rw [matchDir_cons_lookup_none rootV [] rfl]
  have hms : rootV.matchers = [mtV] := rfl
  rw [hms]
  simp only [scanM, hq, hre]
  rfl

/-- C7 witness: the verbatim capture at the concrete segment "z". -/
theorem c7_string_capture_verbatim_witness :
    matchDir (splitOnChar '/' ['/', 'z']).tail rootV =
      (some nodeV, none, [{ source := .vstr ['z'], offset := 0, size := 16 }]) :=
  c7_string_capture_verbatim.2.2 ['z'] (by decide)

/- ---------- C1 ---------- -/

/-- Metadata template with one string field reachable as "y". -/
def mdImgY : MetaImage :=
  { raw := List.replicate 16 0, fields := [(['y'], fpStr16)] }

/-- Registration of "/{x}" (GET) and then "/p{y}" (POST) on a fresh
mux: two variable segments at the same trie position with different
keys (head literal "" versus "p") and different names. -/
def rootXY? : Option Mux :=
  (mkRoute emptyMux ['/', '{', 'x', '}'] (some mdImgX) hGET).bind
    (fun r => mkRoute r ['/', 'p', '{', 'y', '}'] (some mdImgY) hPOST)

def rootXY : Mux := rootXY?.getD emptyMux

def dfltMatcher : fmtMatcher := .mk emptyMux [] [] fpStr16 [] 0

/-- C1 counterexample: if matchers were deduplicated by the key
(prefix, suffix, kind, size), the structurally different "/p{y}"
registration would append a second matcher next to the "/{x}" one.
Instead the parent still holds exactly one matcher — the "{x}" one,
with empty literal head — and its child now carries the POST handlers
of the "/p{y}" registration: the second registration reused the first
matcher's child even though the keys differ. -/
theorem c1_matcher_dedup_counterexample :
    rootXY?.isSome = true ∧
    ¬ rootXY.matchers.length = 2 ∧
    rootXY.matchers.length = 1 ∧
    (rootXY.matchers.getD 0 dfltMatcher).pre = [] ∧
    (rootXY.matchers.getD 0 dfltMatcher).label = ['x'] ∧
    (rootXY.matchers.getD 0 dfltMatcher).child.methodHandlers = hPOST :=
  ⟨rfl, by decide, rfl, rfl, rfl, rfl⟩

/-- The key of a matcher: all its fields except the child node. -/
def mKey (mt : fmtMatcher) : GoStr × GoStr × pathFieldParser × GoStr × Nat :=
  (mt.pre, mt.suf, mt.fp, mt.label, mt.size)

/-- mkRoute's scan index stays inside a non-empty matcher list (the
loop either breaks at a match or ends at the last index). -/
theorem scanIdx_cons (m : fmtMatcher) (ms : List fmtMatcher) (k : fmtMatcher) :
    scanIdx (m :: ms) k =
      if matcherKeyEq m k then 0
      else if ms.isEmpty then 0 else scanIdx ms k + 1 := rfl

theorem scanIdx_lt {ms : List fmtMatcher} (k : fmtMatcher) (h : ms ≠ []) :
    scanIdx ms k < ms.length := by
  induction ms with
  | nil => exact absurd rfl h
  | cons m ms' ih =>
    rw [scanIdx_cons]
    by_cases hk : matcherKeyEq m k
    · simp [hk]
    · simp only [hk, Bool.false_eq_true, if_false]
      cases ms' with
      | nil => simp
      | cons m2 ms'' =>
        have hlt := ih (by simp)
        simp only [List.length_cons] at hlt
        simp only [List.isEmpty_cons, Bool.false_eq_true, if_false,
          List.length_cons]
        omega

/-- Replacing the child of the element at an index keeps the key list
of a matcher list unchanged. -/
theorem map_mKey_set_withChild (c : Mux) :
    ∀ (ms : List fmtMatcher) (i : Nat) (d : fmtMatcher),
      List.map mKey (ms.set i ((ms.getD i d).withChild c)) = List.map mKey ms := by
  intro ms
  induction ms with
  | nil => intro i d; rfl
  | cons m ms' ih =>
    intro i d
    cases i with
    | zero =>
      have : mKey (m.withChild c) = mKey m := by cases m; rfl
      simp [List.getD, this]
    | succ j =>
      simp only [List.set, List.map, List.getD_cons_succ]
      rw [ih j d]

/-- C1 amended: once a parent node holds any matcher, registering a
further variable segment there never appends: the matcher list keeps
its length and its keys, and the registration descends into the child
of the matcher at mkRoute's scan index — the first five-way key match
(which includes the variable name), or the last matcher when none
matches.  In particular a registration with identical prefix, suffix,
kind and size but a different name reuses the existing child — and so
does one with a completely different key. -/
theorem c1_matcher_reuse_amended (mux : Mux) (dir : GoStr) (rest : List GoStr)
    (mi : MetaImage) (sd : Bool) (hs : List GoStr) (r : Mux)
    (preB postB pathVar rem : GoStr) (p : pathFieldParser)
    (hne : mux.matchers ≠ [])
    (hcut : goCutChar '{' dir = (preB, postB, true))
    (hnn : preB.contains '}' = false)
    (hcut2 : goCutChar '}' postB = (pathVar, rem, true))
    (hnest : pathVar.contains '{' = false)
    (hp : lookupP mi.fields pathVar = some p)
    (hins : insertDirs (some mi) sd hs mux (dir :: rest) = some r) :
    r.matchers.length = mux.matchers.length ∧
    List.map mKey r.matchers = List.map mKey mux.matchers ∧
    (∃ c',
      insertDirs (some mi) sd hs
        (mux.matchers.getD
          (scanIdx mux.matchers (fmtMatcher.mk emptyMux preB rem p pathVar p.size))
          (fmtMatcher.mk emptyMux preB rem p pathVar p.size)).child rest = some c' ∧
      r.matchers = mux.matchers.set
        (scanIdx mux.matchers (fmtMatcher.mk emptyMux preB rem p pathVar p.size))
        ((mux.matchers.getD
          (scanIdx mux.matchers (fmtMatcher.mk emptyMux preB rem p pathVar p.size))
          (fmtMatcher.mk emptyMux preB rem p pathVar p.size)).withChild c')) := by
  have hlt := scanIdx_lt (fmtMatcher.mk emptyMux preB rem p pathVar p.size) hne
  rw [insertDirs, hcut] at hins
  simp only [hnn, Bool.false_eq_true, if_false, if_true, hcut2, Bool.not_true,
    hnest, hp] at hins
  rw [if_pos hlt] at hins
  cases hrec : insertDirs (some mi) sd hs
      (mux.matchers.getD
        (scanIdx mux.matchers (fmtMatcher.mk emptyMux preB rem p pathVar p.size))
        (fmtMatcher.mk emptyMux preB rem p pathVar p.size)).child rest with
  | none => rw [hrec] at hins; simp at hins
  | some c' =>
    rw [hrec] at hins
    simp only [Option.some.injEq] at hins
    subst hins
    refine ⟨?_, ?_, c', rfl, ?_⟩
    · cases mux with
      | mk h0 md0 sd0 m0 ms0 => simp [Mux.withMatchers, Mux.matchers]
    · cases mux with
      | mk h0 md0 sd0 m0 ms0 =>
        simpa [Mux.withMatchers, Mux.matchers] using
          map_mKey_set_withChild c' ms0 _ _
    · cases mux with
      | mk h0 md0 sd0 m0 ms0 => simp [Mux.withMatchers, Mux.matchers]

/-- The mux after registering only "/{x}". -/
def rootX : Mux := (mkRoute emptyMux ['/', '{', 'x', '}'] (some mdImgX) hGET).getD emptyMux

/-- C1 amended witness: applying the reuse rule to the "/p{y}"
registration on top of "/{x}": the matcher count stays 1. -/
theorem c1_matcher_reuse_amended_witness :
    rootXY.matchers.length = rootX.matchers.length :=
  (c1_matcher_reuse_amended rootX ['p', '{', 'y', '}'] [] mdImgY false hPOST
    rootXY ['p'] ['y', '}'] ['y'] [] fpStr16
    (List.cons_ne_nil _ _) (by decide) (by decide) (by decide) (by decide)
    rfl rfl).1

end Cmux
